import Mathlib

/-!
# goTour/3_structs_slices_maps.go

A shallow embedding of the tutorial program `3_structs_slices_maps.go`:
machine integers, maps, slice views over backing arrays, the word counter and
the accumulating closure, followed by the properties established about them.

Conventions of the embedding.

* Go `int` is the 64-bit two's-complement integer: values are `Int`s and every
  arithmetic result goes through `wrapInt`.
* A value of type `map[string]int` is the nil map or an allocated map, whose
  entries form an association list with at most one entry per key.  A lookup
  of an absent key gives the zero value together with `false`; an assignment
  to an entry of the nil map is a run-time error.
* Backing arrays live in a `Heap`; a slice is a view
  `(array, offset, length, capacity)` into it.  Index and slice expressions
  are fallible and return the runtime error they would raise.
* `fmt.Println`/`Printf` calls are represented by the values they are given.
-/

namespace GoTour

/-! ## Machine integers -/

/-- Number of bits of a Go `int`. -/
def intBits : Nat := 64

/-- Smallest `int`. -/
def minInt : Int := -(2 ^ (intBits - 1))

/-- Largest `int`. -/
def maxInt : Int := 2 ^ (intBits - 1) - 1

/-- Two's-complement wrap-around of an integer result into the `int` range. -/
def wrapInt (z : Int) : Int :=
  (z + 2 ^ (intBits - 1)) % 2 ^ intBits - 2 ^ (intBits - 1)

/-- Membership in the `int` range. -/
def inIntRange (z : Int) : Prop := minInt ≤ z ∧ z ≤ maxInt

instance (z : Int) : Decidable (inIntRange z) := by
  unfold inIntRange; infer_instance

/-! ## Runtime errors -/

/-- Run-time failures.  `indexOutOfRange`, `sliceBoundsOutOfRange`,
`makeCapOutOfRange` and `assignToNilMap` are panics of the Go runtime.  `danglingStorage` (a view
reaching outside its array) and `illTyped` (a cell of the wrong kind) cannot
happen in a Go program; they come with the untyped heap of the embedding. -/
inductive Err where
  | indexOutOfRange
  | sliceBoundsOutOfRange
  | makeCapOutOfRange
  | assignToNilMap
  | danglingStorage
  | illTyped
  deriving DecidableEq

deriving instance DecidableEq for Except

/-! ## Maps from strings to ints -/

/-- The entries of an allocated map: an association list, one entry per key. -/
abbrev Entries := List (String × Int)

/-- Look a key up among the entries: its value and `true`, or the zero value
and `false`. -/
def entriesGet : Entries → String → Int × Bool
  | [], _ => (0, false)
  | (k', v) :: rest, k => if k' = k then (v, true) else entriesGet rest k

/-- The value found for a key among the entries, 0 when there is none. -/
def entriesIndex (m : Entries) (k : String) : Int := (entriesGet m k).1

/-- Overwrite the entry of `k`, or add one. -/
def entriesSet : Entries → String → Int → Entries
  | [], k, v => [(k, v)]
  | (k', v') :: rest, k, v =>
    if k' = k then (k, v) :: rest else (k', v') :: entriesSet rest k v

/-- Remove the entry of `k`. -/
def entriesDelete (m : Entries) (k : String) : Entries :=
  m.filter (fun e => decide (e.1 ≠ k))

/-- The keys of the entries. -/
def entriesKeys (m : Entries) : List String := m.map Prod.fst

/-- The values of the entries. -/
def entriesValues (m : Entries) : List Int := m.map Prod.snd

/-- A value of type `map[string]int`: the nil map (the zero value of the type,
as of `var m map[string]int`), or a map allocated by `make` with its entries. -/
inductive GoMap where
  | nil
  | made (entries : Entries)
  deriving DecidableEq

/-- The entries of a map; the nil map has none. -/
def GoMap.entries : GoMap → Entries
  | .nil => []
  | .made es => es

/-- The expression `make(map[string]int)`. -/
def makeMap : GoMap := .made []

/-- The expression `v, ok := m[k]`: the zero value and `false` when `k` is
absent, also on the nil map. -/
def mapGet (m : GoMap) (k : String) : Int × Bool := entriesGet m.entries k

/-- The expression `m[k]`. -/
def mapIndex (m : GoMap) (k : String) : Int := (mapGet m k).1

/-- The statement `m[k] = v`; it panics on the nil map. -/
def mapSet : GoMap → String → Int → Except Err GoMap
  | .nil, _, _ => .error .assignToNilMap
  | .made es, k, v => .ok (.made (entriesSet es k v))

/-- The statement `delete(m, k)`; it does nothing on the nil map. -/
def mapDelete : GoMap → String → GoMap
  | .nil, _ => .nil
  | .made es, k => .made (entriesDelete es k)

/-- The keys present in a map. -/
def mapKeys (m : GoMap) : List String := entriesKeys m.entries

/-- The values stored in a map. -/
def mapValues (m : GoMap) : List Int := entriesValues m.entries

/-! ## `strings.Fields` -/

/-- The predicate `unicode.IsSpace`. -/
def isSpace (c : Char) : Bool :=
  let n := c.toNat
  (9 ≤ n ∧ n ≤ 13) ∨ n = 0x20 ∨ n = 0x85 ∨ n = 0xA0 ∨ n = 0x1680 ∨
    (0x2000 ≤ n ∧ n ≤ 0x200a) ∨ n = 0x2028 ∨ n = 0x2029 ∨ n = 0x202f ∨
    n = 0x205f ∨ n = 0x3000

/-- Split a character list around runs of white space; `cur` is the field
being read, in reverse. -/
def fieldsAux : List Char → List Char → List (List Char)
  | [], cur => if cur.isEmpty then [] else [cur.reverse]
  | c :: cs, cur =>
    if isSpace c then
      if cur.isEmpty then fieldsAux cs [] else cur.reverse :: fieldsAux cs []
    else fieldsAux cs (c :: cur)

/-- The library function `strings.Fields`: the maximal runs of non-space
characters of `s`, in order.  A string is a sequence of Unicode characters
here (a Go string that is valid UTF-8). -/
def Fields (s : String) : List String :=
  (fieldsAux s.data []).map String.mk

/-! ## Counted loops -/

/-- The loop `for i := 0; i < n; i++ { body }` (and `for i := range x` with
`n = len(x)`) whose body changes neither `i` nor `n`: the body runs for
`i = 0, 1, ..., n-1`, threading the state, and stops at the first error. -/
def forRange {σ : Type} (n : Nat) (body : Nat → σ → Except Err σ) (init : σ) : Except Err σ :=
  (List.range n).foldlM (fun st i => body i st) init

/-! ## `WordCount` -/

/-- One iteration of the loop of `WordCount`:
`word := words[i]; v := m[word]; m[word] = v + 1`. -/
def WordCount.body (words : List String) (i : Nat) (m : GoMap) : Except Err GoMap :=
  match words[i]? with
  | none => .error .indexOutOfRange
  | some word =>
    let v := mapIndex m word
    mapSet m word (wrapInt (v + 1))

/-- The effect of one iteration on the entries of an allocated map. -/
def countWord (es : Entries) (word : String) : Entries :=
  entriesSet es word (wrapInt (entriesIndex es word + 1))

/-- The function `WordCount`. -/
def WordCount (s : String) : Except Err GoMap :=
  let m := makeMap
  let words := Fields s
  forRange words.length (WordCount.body words) m

/-! ## Backing storage and slice views -/

/-- A slice header: the backing array it refers to, the offset of its first
element in that array, its length and its capacity. -/
structure Slice where
  arr : Nat
  off : Nat
  len : Nat
  cap : Nat
  deriving DecidableEq

/-- Values stored in array cells. -/
inductive Val where
  | int (i : Int)
  | str (s : String)
  | bool (b : Bool)
  | slice (s : Slice)
  | record (i : Int) (b : Bool)
  deriving DecidableEq

/-- The backing arrays allocated so far; an array is named by its position. -/
abbrev Heap := List (List Val)

/-- The cells of backing array `a` (none for an array never allocated). -/
def cellsOf (h : Heap) (a : Nat) : List Val := h.getD a []

/-- The nil slice: length 0, capacity 0, no storage behind it. -/
def nilSlice : Slice := ⟨0, 0, 0, 0⟩

/-- An array or slice literal: a fresh backing array holding `cells`, and the
view of all of it. -/
def newArray (h : Heap) (cells : List Val) : Slice × Heap :=
  (⟨h.length, 0, cells.length, cells.length⟩, h ++ [cells])

/-- The expression `make([]T, len, cap)`: a fresh array of `cap` zero values. -/
def makeSlice (h : Heap) (zero : Val) (len cap : Nat) : Except Err (Slice × Heap) :=
  if len ≤ cap then .ok (⟨h.length, 0, len, cap⟩, h ++ [List.replicate cap zero])
  else .error .makeCapOutOfRange

/-- The slice expression `s[lo:hi]`. -/
def reslice (s : Slice) (lo hi : Nat) : Except Err Slice :=
  if lo ≤ hi ∧ hi ≤ s.cap then .ok ⟨s.arr, s.off + lo, hi - lo, s.cap - lo⟩
  else .error .sliceBoundsOutOfRange

/-- The index expression `s[i]`. -/
def index (h : Heap) (s : Slice) (i : Nat) : Except Err Val :=
  if i < s.len then
    match (cellsOf h s.arr)[s.off + i]? with
    | some v => .ok v
    | none => .error .danglingStorage
  else .error .indexOutOfRange

/-- The assignment `s[i] = v`. -/
def setIndex (h : Heap) (s : Slice) (i : Nat) (v : Val) : Except Err Heap :=
  if i < s.len then
    if s.off + i < (cellsOf h s.arr).length then
      .ok (h.set s.arr ((cellsOf h s.arr).set (s.off + i) v))
    else .error .danglingStorage
  else .error .indexOutOfRange

/-- The elements `s[0], ..., s[len(s)-1]`, as printed by `fmt.Println(s)`. -/
def contents (h : Heap) (s : Slice) : Except Err (List Val) :=
  if s.off + s.len ≤ (cellsOf h s.arr).length then
    .ok (((cellsOf h s.arr).drop s.off).take s.len)
  else .error .danglingStorage

/-- Overwrite the cells from position `pos` on with `xs`. -/
def writeAt (cells : List Val) (pos : Nat) (xs : List Val) : List Val :=
  cells.take pos ++ xs ++ cells.drop (pos + xs.length)

/-- The expression `append(s, xs...)`.  When the elements fit in the capacity
they are written in place after the current length.  Otherwise a new array is
allocated, large enough for the result plus `slack cap need` spare cells (the
growth policy of the runtime, left open), the elements of `s` are copied and
`xs` follow them; spare cells hold `zero`. -/
def append (slack : Nat → Nat → Nat) (zero : Val) (h : Heap) (s : Slice) (xs : List Val) :
    Except Err (Slice × Heap) :=
  if s.len + xs.length ≤ s.cap then
    if s.off + s.cap ≤ (cellsOf h s.arr).length then
      .ok (⟨s.arr, s.off, s.len + xs.length, s.cap⟩,
        h.set s.arr (writeAt (cellsOf h s.arr) (s.off + s.len) xs))
    else .error .danglingStorage
  else
    match contents h s with
    | .error e => .error e
    | .ok old =>
      let need := s.len + xs.length
      let newCap := need + slack s.cap need
      .ok (⟨h.length, 0, need, newCap⟩,
        h ++ [old ++ xs ++ List.replicate (newCap - need) zero])

/-- A view lies within its backing array: `len ≤ cap` and the `cap` cells from
`off` on exist. -/
def Slice.validIn (h : Heap) (s : Slice) : Prop :=
  s.len ≤ s.cap ∧ s.off + s.cap ≤ (cellsOf h s.arr).length

instance (h : Heap) (s : Slice) : Decidable (s.validIn h) := by
  unfold Slice.validIn; infer_instance

/-- A sequence of assignments `u[i] = x`, each through some view `u`. -/
def writeAll (h : Heap) (ws : List (Slice × Nat × Val)) : Except Err Heap :=
  ws.foldlM (fun h w => setIndex h w.1 w.2.1 w.2.2) h

/-- The shift `x << n` on `int`. -/
def shl (x : Int) (n : Nat) : Int := wrapInt (x * 2 ^ n)

/-- What `printSlice` and `printSlice2` print: `len(s)`, `cap(s)` and the elements. -/
def printSlice (h : Heap) (s : Slice) : Except Err (Nat × Nat × List Val) :=
  match contents h s with
  | .error e => .error e
  | .ok vs => .ok (s.len, s.cap, vs)

/-! ## The demonstration functions -/

/-- Values printed by `arrays`. -/
structure ArraysOut where
  first : Val
  second : Val
  a : List Val
  primes : List Val
  deriving DecidableEq

/-- The function `arrays`. -/
def arrays : Except Err ArraysOut := do
  let h : Heap := []
  let (a, h) := newArray h [.str "", .str ""]
  let h ← setIndex h a 0 (.str "Hello")
  let h ← setIndex h a 1 (.str "World")
  let first ← index h a 0
  let second ← index h a 1
  let outA ← contents h a
  let (primes, h) := newArray h [.int 2, .int 3, .int 4, .int 5, .int 666, .int 721]
  let outPrimes ← contents h primes
  return ⟨first, second, outA, outPrimes⟩

/-- Values printed by `sliceLiterals`. -/
structure SliceLiteralsOut where
  q : List Val
  r : List Val
  s : List Val
  deriving DecidableEq

/-- The function `sliceLiterals`. -/
def sliceLiterals : Except Err SliceLiteralsOut := do
  let h : Heap := []
  let (q, h) := newArray h [.int 2, .int 3, .int 5, .int 7, .int 11, .int 13]
  let outQ ← contents h q
  let (r, h) := newArray h
    [.bool true, .bool false, .bool true, .bool true, .bool false, .bool true]
  let outR ← contents h r
  let (s, h) := newArray h
    [.record 2 true, .record 3 false, .record 5 true, .record 7 true, .record 11 false,
      .record 13 true]
  let outS ← contents h s
  return ⟨outQ, outR, outS⟩

/-- Values printed by `sliceLenCap`: the four `printSlice` lines, then `s`. -/
structure SliceLenCapOut where
  s0 : Nat × Nat × List Val
  a1 : Nat × Nat × List Val
  a2 : Nat × Nat × List Val
  a3 : Nat × Nat × List Val
  s : List Val
  deriving DecidableEq

/-- The function `sliceLenCap`. -/
def sliceLenCap : Except Err SliceLenCapOut := do
  let h : Heap := []
  let (s, h) := newArray h [.int 2, .int 3, .int 5, .int 7, .int 11, .int 13]
  let p0 ← printSlice h s
  let a ← reslice s 0 0
  let p1 ← printSlice h a
  let a ← reslice s 0 4
  let p2 ← printSlice h a
  let a ← reslice s 2 s.len
  let p3 ← printSlice h a
  let outS ← contents h s
  return ⟨p0, p1, p2, p3, outS⟩

/-- Values printed by `makeDynamicSlice`: the `printSlice2` lines of `a`, `b`, `c`, `d`. -/
structure MakeDynamicSliceOut where
  a : Nat × Nat × List Val
  b : Nat × Nat × List Val
  c : Nat × Nat × List Val
  d : Nat × Nat × List Val
  deriving DecidableEq

/-- The function `makeDynamicSlice`. -/
def makeDynamicSlice : Except Err MakeDynamicSliceOut := do
  let h : Heap := []
  let (a, h) ← makeSlice h (.int 0) 5 5
  let pa ← printSlice h a
  let (b, h) ← makeSlice h (.int 0) 0 5
  let pb ← printSlice h b
  let c ← reslice b 0 2
  let pc ← printSlice h c
  let d ← reslice c 2 5
  let pd ← printSlice h d
  return ⟨pa, pb, pc, pd⟩

/-- A cell that holds a slice header. -/
def asSlice : Val → Except Err Slice
  | .slice s => .ok s
  | _ => .error .illTyped

/-- A cell that holds a string. -/
def asStr : Val → Except Err String
  | .str s => .ok s
  | _ => .error .illTyped

/-- The library function `strings.Join`. -/
def Join (elems : List String) (sep : String) : String := sep.intercalate elems

/-- The assignment `board[i][j] = v`. -/
def setIndex2 (h : Heap) (board : Slice) (i j : Nat) (v : Val) : Except Err Heap := do
  let row ← index h board i
  let row ← asSlice row
  setIndex h row j v

/-- The function `sliceOfSlices`: the lines it prints. -/
def sliceOfSlices : Except Err (List String) := do
  let h : Heap := []
  let (r0, h) := newArray h [.str "_", .str "_", .str "_"]
  let (r1, h) := newArray h [.str "_", .str "_", .str "_"]
  let (r2, h) := newArray h [.str "_", .str "_", .str "_"]
  let (board, h) := newArray h [.slice r0, .slice r1, .slice r2]
  let h ← setIndex2 h board 0 0 (.str "X")
  let h ← setIndex2 h board 2 2 (.str "O")
  let h ← setIndex2 h board 1 2 (.str "X")
  let h ← setIndex2 h board 1 0 (.str "O")
  let h ← setIndex2 h board 0 2 (.str "X")
  forRange board.len (fun i out => do
    let row ← index h board i
    let row ← asSlice row
    let cells ← contents h row
    let strs ← cells.mapM asStr
    return out ++ [Join strs " "]) []

/-- Values printed by `sliceAppend`: its three `printSlice` lines. -/
structure SliceAppendOut where
  s0 : Nat × Nat × List Val
  s1 : Nat × Nat × List Val
  s2 : Nat × Nat × List Val
  deriving DecidableEq

/-- The function `sliceAppend`, for a growth policy `slack`. -/
def sliceAppend (slack : Nat → Nat → Nat) : Except Err SliceAppendOut := do
  let h : Heap := []
  let s := nilSlice
  let p0 ← printSlice h s
  let (s, h) ← append slack (.int 0) h s [.int 0]
  let (s, h) ← append slack (.int 0) h s [.int 1]
  let p1 ← printSlice h s
  let (s, h) ← append slack (.int 0) h s [.int 2, .int 3, .int 4]
  let p2 ← printSlice h s
  return ⟨p0, p1, p2⟩

/-- Values printed by `slices` itself, and the slice `pow` as the last loop leaves it. -/
structure SlicesOut where
  s : List Val
  names : List Val
  a : List Val
  b : List Val
  sliceEq : List (List Val)
  indexed : List (Nat × Val)
  values : List Val
  powLen : Nat
  pow : List Val
  deriving DecidableEq

/-- The function `slices`, for a growth policy `slack` of `append`. -/
def slices (slack : Nat → Nat → Nat) : Except Err SlicesOut := do
  let h : Heap := []
  let (primes, h) := newArray h [.int 2, .int 3, .int 5, .int 7, .int 11, .int 13]
  let s ← reslice primes 1 4
  let outS ← contents h s
  let (names, h) := newArray h [.str "John", .str "Paul", .str "George", .str "Ringo"]
  let outNames ← contents h names
  let a ← reslice names 0 2
  let b ← reslice names 1 3
  let h ← setIndex h b 0 (.str "XXX")
  let outA ← contents h a
  let outB ← contents h b
  let _ ← sliceLiterals
  let slice_eq ← reslice primes 0 6
  let e0 ← contents h slice_eq
  let slice_eq ← reslice primes 0 6
  let e1 ← contents h slice_eq
  let slice_eq ← reslice primes 0 primes.len
  let e2 ← contents h slice_eq
  let slice_eq ← reslice primes 0 primes.len
  let e3 ← contents h slice_eq
  let _ ← sliceLenCap
  let _ ← makeDynamicSlice
  let _ ← sliceOfSlices
  let _ ← sliceAppend slack
  let (pow, h) := newArray h
    [.int 1, .int 2, .int 4, .int 8, .int 16, .int 32, .int 64, .int 128]
  let indexed ← forRange pow.len (fun i out => do
    let value ← index h pow i
    return out ++ [(i, value)]) []
  let values ← forRange pow.len (fun i out => do
    let value ← index h pow i
    return out ++ [value]) []
  let h ← forRange pow.len (fun i h => setIndex h pow i (.int (shl 1 i))) h
  let outPow ← contents h pow
  return ⟨outS, outNames, outA, outB, [e0, e1, e2, e3], indexed, values, pow.len, outPow⟩

/-- Values printed by `mutatingMaps`: the three lookups `m["Answer"]`, then
`v` and `ok`. -/
structure MutatingMapsOut where
  afterSet : Int
  afterEdit : Int
  afterDelete : Int
  v : Int
  ok : Bool
  deriving DecidableEq

/-- The function `mutatingMaps`. -/
def mutatingMaps : Except Err MutatingMapsOut := do
  let m := makeMap
  let m ← mapSet m "Answer" 42
  let p0 := mapIndex m "Answer"
  let m ← mapSet m "Answer" 48
  let p1 := mapIndex m "Answer"
  let m := mapDelete m "Answer"
  let p2 := mapIndex m "Answer"
  let (v, ok) := mapGet m "Answer"
  return ⟨p0, p1, p2, v, ok⟩

/-! ## Closures -/

/-- The captured variables `sum`, one cell per closure created. -/
abbrev Store := List Int

/-- A closure returned by `anonymousFunction`: the cell of the `sum` it captured. -/
structure Closure where
  cell : Nat
  deriving DecidableEq

/-- The function `anonymousFunction`: a fresh `sum := 0` and the closure over it. -/
def anonymousFunction (st : Store) : Closure × Store :=
  (⟨st.length⟩, st ++ [0])

/-- A call `f(x)` of a closure: `sum += x; return sum`. -/
def Closure.call (f : Closure) (x : Int) (st : Store) : Int × Store :=
  let sum := wrapInt (st.getD f.cell 0 + x)
  (sum, st.set f.cell sum)

/-- Successive calls `f(x1), ..., f(xn)` of one closure, and the values returned. -/
def callAll (f : Closure) : List Int → Store → List Int × Store
  | [], st => ([], st)
  | x :: xs, st =>
    let (r, st) := f.call x st
    let (rs, st) := callAll f xs st
    (r :: rs, st)

/-- The running totals of `xs` starting from `acc`, in `int` arithmetic. -/
def runningTotals : Int → List Int → List Int
  | _, [] => []
  | acc, x :: xs => wrapInt (acc + x) :: runningTotals (wrapInt (acc + x)) xs

/-- An interleaving of calls of two closures `f` and `g`: `(true, x)` is the
call `f(x)` and `(false, x)` is the call `g(x)`.  Each call is recorded with the
value it returned. -/
def interleave (f g : Closure) : List (Bool × Int) → Store → List (Bool × Int) × Store
  | [], st => ([], st)
  | (who, x) :: rest, st =>
    let (r, st) := (if who then f else g).call x st
    let (rs, st) := interleave f g rest st
    ((who, r) :: rs, st)

/-- The values of the entries tagged `who`. -/
def tagged (who : Bool) (l : List (Bool × Int)) : List Int :=
  (l.filter (fun e => e.1 == who)).map Prod.snd

/-- The closures and the loop of `functions`: the pairs `pos(i), neg(-2*i)`
printed for `i = 0, ..., 9`.  The floating-point lines before them (`hypot`,
`compute`) are left out. -/
def functions : List (Int × Int) :=
  let st : Store := []
  let (pos, st) := anonymousFunction st
  let (neg, st) := anonymousFunction st
  ((List.range 10).foldl (fun (acc : List (Int × Int) × Store) i =>
    let (p, st) := pos.call (i : Int) acc.2
    let (n, st) := neg.call (wrapInt (-2 * (i : Int))) st
    (acc.1 ++ [(p, n)], st)) ([], st)).1

/-! ## Facts about machine integers -/

theorem wrapInt_eq_self {z : Int} (h : inIntRange z) : wrapInt z = z := by
  unfold inIntRange minInt maxInt intBits at h
  unfold wrapInt intBits
  norm_num at h ⊢
  omega

theorem wrapInt_add_wrapInt (a b : Int) : wrapInt (wrapInt a + b) = wrapInt (a + b) := by
  unfold wrapInt intBits
  norm_num
  omega

/-! ## Facts about maps -/

theorem entriesGet_entriesSet_same (m : Entries) (k : String) (v : Int) :
    entriesGet (entriesSet m k v) k = (v, true) := by
  induction m with
  | nil => simp [entriesSet, entriesGet]
  | cons e rest ih =>
    obtain ⟨k', v'⟩ := e
    by_cases hk : k' = k
    · simp [entriesSet, entriesGet, hk]
    · simp [entriesSet, entriesGet, hk, ih]

theorem entriesGet_entriesSet_other (m : Entries) (k k' : String) (v : Int) (h : k ≠ k') :
    entriesGet (entriesSet m k v) k' = entriesGet m k' := by
  induction m with
  | nil => simp [entriesSet, entriesGet, h]
  | cons e rest ih =>
    obtain ⟨k'', v''⟩ := e
    by_cases hk : k'' = k
    · subst hk
      simp [entriesSet, entriesGet, h]
    · by_cases hk' : k'' = k'
      · subst hk'
        simp [entriesSet, entriesGet, hk]
      · simp [entriesSet, entriesGet, hk, hk', ih]

theorem entriesGet_entriesDelete_same (m : Entries) (k : String) :
    entriesGet (entriesDelete m k) k = (0, false) := by
  induction m with
  | nil => simp [entriesDelete, entriesGet]
  | cons e rest ih =>
    obtain ⟨k', v'⟩ := e
    by_cases hk : k' = k
    · simpa [entriesDelete, hk] using ih
    · simpa [entriesDelete, List.filter_cons, hk, entriesGet] using ih

theorem entriesIndex_entriesSet (m : Entries) (k k' : String) (v : Int) :
    entriesIndex (entriesSet m k v) k' = if k = k' then v else entriesIndex m k' := by
  unfold entriesIndex
  by_cases h : k = k'
  · subst h
    simp [entriesGet_entriesSet_same]
  · simp [h, entriesGet_entriesSet_other m k k' v h]

theorem mem_entriesKeys_entriesSet (m : Entries) (k w : String) (v : Int) :
    w ∈ entriesKeys (entriesSet m k v) ↔ w ∈ entriesKeys m ∨ w = k := by
  induction m with
  | nil => simp [entriesSet, entriesKeys]
  | cons e rest ih =>
    obtain ⟨k', v'⟩ := e
    by_cases hk : k' = k
    · subst hk
      simp only [entriesSet, if_true, entriesKeys, List.map_cons, List.mem_cons]
      tauto
    · simp only [entriesKeys] at ih
      simp [entriesSet, entriesKeys, hk, ih, or_assoc]

theorem nodup_entriesKeys_entriesSet (m : Entries) (k : String) (v : Int) (h : (entriesKeys m).Nodup) :
    (entriesKeys (entriesSet m k v)).Nodup := by
  induction m with
  | nil => simp [entriesSet, entriesKeys]
  | cons e rest ih =>
    obtain ⟨k', v'⟩ := e
    by_cases hk : k' = k
    · subst hk
      simpa [entriesSet, entriesKeys] using h
    · have h' : k' ∉ entriesKeys rest ∧ (entriesKeys rest).Nodup := by
        simpa [entriesKeys] using h
      have hmem := mem_entriesKeys_entriesSet rest k k' v
      have hrec := ih h'.2
      simp only [entriesSet, hk, if_false, entriesKeys, List.map_cons, List.nodup_cons]
      refine ⟨?_, hrec⟩
      intro hc
      rcases hmem.1 hc with h1 | h1
      · exact h'.1 h1
      · exact hk h1

theorem sum_entriesValues_entriesSet (m : Entries) (k : String) (v : Int) :
    (entriesValues (entriesSet m k v)).sum = (entriesValues m).sum - entriesIndex m k + v := by
  induction m with
  | nil => simp [entriesSet, entriesValues, entriesIndex, entriesGet]
  | cons e rest ih =>
    obtain ⟨k', v'⟩ := e
    by_cases hk : k' = k
    · simp [entriesSet, entriesValues, entriesIndex, entriesGet, hk]
      omega
    · simp only [entriesValues, entriesIndex] at ih
      simp [entriesSet, entriesValues, entriesIndex, entriesGet, hk, ih]
      omega

theorem mem_entriesValues_entriesSet (m : Entries) (k : String) (v x : Int)
    (h : x ∈ entriesValues (entriesSet m k v)) : x ∈ entriesValues m ∨ x = v := by
  induction m with
  | nil => simpa [entriesSet, entriesValues] using h
  | cons e rest ih =>
    obtain ⟨k', v'⟩ := e
    by_cases hk : k' = k
    · simp [entriesSet, entriesValues, hk] at h
      rcases h with h | h
      · exact Or.inr h
      · refine Or.inl ?_
        simp only [entriesValues, List.map_cons, List.mem_cons]
        exact Or.inr (by simpa using h)
    · simp only [entriesSet, hk, if_false, entriesValues, List.map_cons, List.mem_cons] at h
      rcases h with h | h
      · exact Or.inl (by simp [entriesValues, h])
      · rcases ih h with h1 | h1
        · refine Or.inl ?_
          simp only [entriesValues, List.map_cons, List.mem_cons]
          exact Or.inr h1
        · exact Or.inr h1

theorem entriesIndex_le_sum (m : Entries) (k : String) (h : ∀ x ∈ entriesValues m, 0 ≤ x) :
    0 ≤ entriesIndex m k ∧ entriesIndex m k ≤ (entriesValues m).sum := by
  induction m with
  | nil => simp [entriesIndex, entriesGet, entriesValues]
  | cons e rest ih =>
    obtain ⟨k', v'⟩ := e
    have hv : 0 ≤ v' := h v' (by simp [entriesValues])
    have hrest : ∀ x ∈ entriesValues rest, 0 ≤ x := fun x hx =>
      h x (by simp only [entriesValues, List.map_cons, List.mem_cons]; exact Or.inr hx)
    have hsum : 0 ≤ (entriesValues rest).sum := List.sum_nonneg hrest
    have ih' := ih hrest
    simp only [entriesIndex] at ih'
    by_cases hk : k' = k
    · simp only [entriesValues] at hsum
      simp [entriesIndex, entriesGet, hk, entriesValues, hv, hsum]
    · simp only [entriesValues] at ih' hsum
      simp [entriesIndex, entriesGet, hk, entriesValues]
      omega

theorem entriesIndex_eq_zero_of_not_mem (m : Entries) (k : String) (h : k ∉ entriesKeys m) :
    entriesGet m k = (0, false) := by
  induction m with
  | nil => simp [entriesGet]
  | cons e rest ih =>
    obtain ⟨k', v'⟩ := e
    have h' : ¬ k = k' ∧ k ∉ entriesKeys rest := by simpa [entriesKeys] using h
    have hk : ¬ k' = k := fun hc => h'.1 hc.symm
    simp [entriesGet, hk, ih h'.2]

/-! ## Facts about counted loops and `WordCount` -/

theorem forRange_zero {σ : Type} (body : Nat → σ → Except Err σ) (init : σ) :
    forRange 0 body init = .ok init := by
  simp [forRange, pure, Except.pure]

theorem forRange_succ {σ : Type} (n : Nat) (body : Nat → σ → Except Err σ) (init : σ) :
    forRange (n + 1) body init = (forRange n body init >>= body n) := by
  simp [forRange, List.range_succ, List.foldlM_append]

theorem forRange_ok_step {σ : Type} (n : Nat) (body : Nat → σ → Except Err σ) (init st : σ)
    (h : forRange n body init = .ok st) : forRange (n + 1) body init = body n st := by
  rw [forRange_succ, h]
  rfl

theorem WordCount_body_eq (words : List String) (i : Nat) (hi : i < words.length)
    (es : Entries) :
    WordCount.body words i (.made es) = .ok (.made (countWord es (words.get ⟨i, hi⟩))) := by
  have h : words[i]? = some (words.get ⟨i, hi⟩) := by
    simp [List.getElem?_eq_getElem hi]
  simp [WordCount.body, h, countWord, mapSet, mapIndex, mapGet, GoMap.entries, entriesIndex]

theorem WordCount_loop_eq (words : List String) (n : Nat) (hn : n ≤ words.length)
    (es : Entries) :
    forRange n (WordCount.body words) (.made es) =
      .ok (.made ((words.take n).foldl countWord es)) := by
  induction n with
  | zero => simp [forRange_zero]
  | succ n ih =>
    have hlt : n < words.length := hn
    rw [forRange_ok_step n _ _ _ (ih (Nat.le_of_lt hlt)), WordCount_body_eq words n hlt]
    have h : words[n]? = some (words.get ⟨n, hlt⟩) := by
      simp [List.getElem?_eq_getElem hlt]
    have ht : words.take (n + 1) = words.take n ++ [words.get ⟨n, hlt⟩] := by
      rw [List.take_succ, h]
      rfl
    rw [ht, List.foldl_append]
    rfl

theorem WordCount_eq (s : String) :
    WordCount s = .ok (.made ((Fields s).foldl countWord [])) := by
  unfold WordCount
  simp only [makeMap]
  rw [WordCount_loop_eq (Fields s) (Fields s).length (Nat.le_refl _) []]
  simp

theorem fieldsAux_length (cs cur : List Char) :
    (fieldsAux cs cur).length ≤ cs.length + (if cur.isEmpty then 0 else 1) := by
  induction cs generalizing cur with
  | nil =>
    by_cases hc : cur.isEmpty <;> simp [fieldsAux, hc]
  | cons c cs ih =>
    have h0 := ih []
    have h1 := ih (c :: cur)
    simp only [List.isEmpty_nil, if_true, List.isEmpty_cons, Bool.false_eq_true,
      if_false] at h0 h1
    by_cases hsp : isSpace c
    · by_cases hc : cur.isEmpty
      · simp only [fieldsAux, hsp, hc, if_true, List.length_cons]
        omega
      · simp only [fieldsAux, hsp, hc, if_true, if_false, List.length_cons, Bool.false_eq_true]
        omega
    · simp only [fieldsAux, hsp, if_false, List.length_cons, Bool.false_eq_true]
      split <;> omega

theorem Fields_length_le (s : String) : (Fields s).length ≤ s.length := by
  have h := fieldsAux_length s.data []
  simp only [List.isEmpty_nil, if_true, Nat.add_zero] at h
  unfold Fields
  rw [List.length_map]
  exact h

/-- The state of the map after the words `ws` have been counted. -/
theorem countWord_fold_inv (ws : List String) (hlen : (ws.length : Int) ≤ maxInt) :
    (∀ x ∈ entriesValues (ws.foldl countWord []), 1 ≤ x) ∧
    (entriesValues (ws.foldl countWord [])).sum = ws.length ∧
    (entriesKeys (ws.foldl countWord [])).Nodup ∧
    (∀ w, w ∈ entriesKeys (ws.foldl countWord []) ↔ w ∈ ws) ∧
    (∀ w, entriesIndex (ws.foldl countWord []) w = ws.count w) := by
  induction ws using List.reverseRecOn with
  | nil => simp [entriesValues, entriesKeys, entriesIndex, entriesGet]
  | append_singleton init x ih =>
    have hlen' : (init.length : Int) + 1 ≤ maxInt := by
      simpa [List.length_append] using hlen
    obtain ⟨hpos, hsum, hnd, hkeys, hcnt⟩ := ih (by omega)
    have hnn : ∀ v ∈ entriesValues (init.foldl countWord []), 0 ≤ v := fun v hv => by
      have := hpos v hv
      omega
    have hidx := entriesIndex_le_sum (init.foldl countWord []) x hnn
    have hrange : inIntRange (entriesIndex (init.foldl countWord []) x + 1) := by
      unfold inIntRange
      constructor
      · have : minInt ≤ 0 := by decide
        omega
      · omega
    have hstep : (init ++ [x]).foldl countWord [] =
        entriesSet (init.foldl countWord []) x (entriesIndex (init.foldl countWord []) x + 1) := by
      simp [List.foldl_append, countWord, wrapInt_eq_self hrange]
    rw [hstep]
    refine ⟨?_, ?_, ?_, ?_, ?_⟩
    · intro v hv
      rcases mem_entriesValues_entriesSet _ _ _ _ hv with h | h
      · exact hpos v h
      · omega
    · rw [sum_entriesValues_entriesSet, hsum]
      simp only [List.length_append, List.length_singleton]
      push_cast
      omega
    · exact nodup_entriesKeys_entriesSet _ _ _ hnd
    · intro w
      rw [mem_entriesKeys_entriesSet, hkeys]
      simp
    · intro w
      rw [entriesIndex_entriesSet, hcnt, List.count_append, List.count_singleton]
      by_cases hxw : x = w
      · subst hxw
        simp
      · have : ¬ (x == w) = true := by simpa using hxw
        simp [hxw, hcnt]

/-! ## Facts about backing storage -/

theorem cellsOf_eq_nil {h : Heap} {a : Nat} (ha : h.length ≤ a) : cellsOf h a = [] := by
  simp [cellsOf, List.getD_eq_getElem?_getD, List.getElem?_eq_none ha]

theorem lt_length_of_cellsOf {h : Heap} {a n : Nat} (hn : n < (cellsOf h a).length) :
    a < h.length := by
  by_contra hc
  rw [cellsOf_eq_nil (Nat.le_of_not_lt hc)] at hn
  simp at hn

theorem cellsOf_set_same {h : Heap} {a : Nat} (c : List Val) (ha : a < h.length) :
    cellsOf (h.set a c) a = c := by
  simp [cellsOf, List.getD_eq_getElem?_getD, List.getElem?_set, ha]

theorem cellsOf_set_other {h : Heap} {a b : Nat} (c : List Val) (hab : a ≠ b) :
    cellsOf (h.set a c) b = cellsOf h b := by
  simp [cellsOf, List.getD_eq_getElem?_getD, List.getElem?_set, hab]

theorem cellsOf_append_new (h : Heap) (c : List Val) :
    cellsOf (h ++ [c]) h.length = c := by
  simp [cellsOf, List.getD_eq_getElem?_getD]

theorem reslice_inv {s t : Slice} {lo hi : Nat} (h : reslice s lo hi = .ok t) :
    lo ≤ hi ∧ hi ≤ s.cap ∧ t = ⟨s.arr, s.off + lo, hi - lo, s.cap - lo⟩ := by
  unfold reslice at h
  by_cases hc : lo ≤ hi ∧ hi ≤ s.cap
  · simp only [hc, and_self, if_true] at h
    exact ⟨hc.1, hc.2, (Except.ok.inj h).symm⟩
  · simp [hc] at h

theorem setIndex_ok {h : Heap} {s : Slice} {i : Nat} (x : Val) (hi : i < s.len)
    (hc : s.off + i < (cellsOf h s.arr).length) :
    setIndex h s i x = .ok (h.set s.arr ((cellsOf h s.arr).set (s.off + i) x)) := by
  simp [setIndex, hi, hc]

theorem setIndex_inv {h h' : Heap} {s : Slice} {i : Nat} {x : Val}
    (hs : setIndex h s i x = .ok h') :
    i < s.len ∧ s.off + i < (cellsOf h s.arr).length ∧
      h' = h.set s.arr ((cellsOf h s.arr).set (s.off + i) x) := by
  unfold setIndex at hs
  by_cases hi : i < s.len
  · by_cases hc : s.off + i < (cellsOf h s.arr).length
    · simp only [hi, hc, if_true] at hs
      exact ⟨hi, hc, (Except.ok.inj hs).symm⟩
    · simp [hi, hc] at hs
  · simp [hi] at hs

theorem setIndex_frame {h h' : Heap} {s : Slice} {i a : Nat} {x : Val}
    (hs : setIndex h s i x = .ok h') (ha : s.arr ≠ a) :
    cellsOf h' a = cellsOf h a ∧ h'.length = h.length := by
  obtain ⟨_, _, rfl⟩ := setIndex_inv hs
  exact ⟨cellsOf_set_other _ ha, by simp⟩

theorem index_ok {h : Heap} {s : Slice} {i : Nat} {v : Val} (hi : i < s.len)
    (hv : (cellsOf h s.arr)[s.off + i]? = some v) : index h s i = .ok v := by
  simp [index, hi, hv]

theorem contents_congr {h h' : Heap} {s : Slice} (hc : cellsOf h' s.arr = cellsOf h s.arr) :
    contents h' s = contents h s := by
  simp [contents, hc]

theorem writeAll_frame (ws : List (Slice × Nat × Val)) (a : Nat) :
    ∀ (h h' : Heap), (∀ w ∈ ws, w.1.arr ≠ a ∨ w.1.len = 0) → writeAll h ws = .ok h' →
      cellsOf h' a = cellsOf h a := by
  induction ws with
  | nil =>
    intro h h' _ hw
    simp [writeAll, pure, Except.pure] at hw
    rw [hw]
  | cons w ws ih =>
    intro h h' hne hw
    simp only [writeAll, List.foldlM_cons] at hw
    cases hstep : setIndex h w.1 w.2.1 w.2.2 with
    | error e =>
      rw [hstep] at hw
      cases hw
    | ok h1 =>
      rw [hstep] at hw
      have hwa : w.1.arr ≠ a := by
        rcases hne w (List.mem_cons_self _ _) with hna | hz
        · exact hna
        · have := (setIndex_inv hstep).1
          omega
      have h1eq := (setIndex_frame hstep hwa).1
      have := ih h1 h' (fun w' hw' => hne w' (List.mem_cons_of_mem _ hw')) hw
      rw [this, h1eq]

/-! ## Facts about `append` -/

theorem contents_ok {h : Heap} {s : Slice} (hv : s.validIn h) :
    contents h s = .ok (((cellsOf h s.arr).drop s.off).take s.len) := by
  have : s.off + s.len ≤ (cellsOf h s.arr).length := by
    have := hv.1
    have := hv.2
    omega
  simp [contents, this]

theorem length_contents {h : Heap} {s : Slice} (hv : s.validIn h) :
    (((cellsOf h s.arr).drop s.off).take s.len).length = s.len := by
  have := hv.1
  have := hv.2
  simp only [List.length_take, List.length_drop]
  omega

theorem append_grow (slack : Nat → Nat → Nat) (zero : Val) {h : Heap} {s : Slice}
    (xs : List Val) (hv : s.validIn h) (hg : s.cap < s.len + xs.length) :
    append slack zero h s xs =
      .ok (⟨h.length, 0, s.len + xs.length,
          s.len + xs.length + slack s.cap (s.len + xs.length)⟩,
        h ++ [((cellsOf h s.arr).drop s.off).take s.len ++ xs ++
          List.replicate (slack s.cap (s.len + xs.length)) zero]) := by
  have hng : ¬ s.len + xs.length ≤ s.cap := by omega
  simp [append, hng, contents_ok hv]

theorem append_inplace (slack : Nat → Nat → Nat) (zero : Val) {h : Heap} {s : Slice}
    (xs : List Val) (hv : s.validIn h) (hfit : s.len + xs.length ≤ s.cap) :
    append slack zero h s xs =
      .ok (⟨s.arr, s.off, s.len + xs.length, s.cap⟩,
        h.set s.arr (writeAt (cellsOf h s.arr) (s.off + s.len) xs)) := by
  simp [append, hfit, hv.2]

theorem writeAt_length (cells : List Val) (pos : Nat) (xs : List Val)
    (h : pos + xs.length ≤ cells.length) : (writeAt cells pos xs).length = cells.length := by
  simp only [writeAt, List.length_append, List.length_take, List.length_drop]
  omega

theorem writeAt_window (cells : List Val) (off len : Nat) (xs : List Val)
    (h : off + len + xs.length ≤ cells.length) :
    ((writeAt cells (off + len) xs).drop off).take (len + xs.length) =
      (cells.drop off).take len ++ xs := by
  have h1 : (cells.take (off + len)).length = off + len := by
    simp only [List.length_take]
    omega
  have h2 : ((cells.take (off + len)).drop off).length = len := by
    simp only [List.length_drop, h1]
    omega
  have h3 : (cells.take (off + len)).drop off = (cells.drop off).take len := by
    rw [List.drop_take]
    simp
  unfold writeAt
  rw [List.append_assoc, List.drop_append_of_le_length (by omega), h3]
  rw [← List.append_assoc]
  have h4 : ((cells.drop off).take len ++ xs).length = len + xs.length := by
    rw [List.length_append, ← h3, h2]
  rw [List.take_append_of_le_length (by omega), ← h4, List.take_length]

theorem append_spec (slack : Nat → Nat → Nat) (zero : Val) {h : Heap} {s : Slice}
    (xs : List Val) (hv : s.validIn h) :
    ∃ t h', append slack zero h s xs = .ok (t, h') ∧ t.validIn h' ∧
      t.len = s.len + xs.length ∧
      contents h' t = .ok (((cellsOf h s.arr).drop s.off).take s.len ++ xs) := by
  by_cases hfit : s.len + xs.length ≤ s.cap
  · refine ⟨_, _, append_inplace slack zero xs hv hfit, ?_⟩
    have hb := hv.2
    have hw : (writeAt (cellsOf h s.arr) (s.off + s.len) xs).length =
        (cellsOf h s.arr).length := writeAt_length _ _ _ (by omega)
    by_cases ha : s.arr < h.length
    · have hcell := cellsOf_set_same (writeAt (cellsOf h s.arr) (s.off + s.len) xs) ha
      refine ⟨⟨hfit, ?_⟩, rfl, ?_⟩
      · show s.off + s.cap ≤ (cellsOf _ s.arr).length
        rw [hcell, hw]
        exact hb
      · have hle : s.off + (s.len + xs.length) ≤ (cellsOf h s.arr).length := by omega
        simp only [contents, hcell, hw, hle, if_true]
        rw [writeAt_window _ _ _ _ (by omega)]
    · have hnil := cellsOf_eq_nil (Nat.le_of_not_lt ha)
      rw [hnil] at hb
      simp only [List.length_nil, Nat.le_zero, Nat.add_eq_zero] at hb
      have hx : xs = [] := by
        have : xs.length = 0 := by omega
        exact List.length_eq_zero.mp this
      subst hx
      have hset : h.set s.arr (writeAt (cellsOf h s.arr) (s.off + s.len) []) = h := by
        rw [List.set_eq_of_length_le (Nat.le_of_not_lt ha)]
      rw [hset]
      refine ⟨⟨hfit, ?_⟩, rfl, ?_⟩
      · show s.off + s.cap ≤ (cellsOf h s.arr).length
        exact hv.2
      · have hlen : s.len = 0 := by omega
        simp [contents, hnil, hb.1, hlen]
  · have hg : s.cap < s.len + xs.length := by omega
    refine ⟨_, _, append_grow slack zero xs hv hg, ⟨?_, ?_⟩, rfl, ?_⟩
    · show s.len + xs.length ≤ s.len + xs.length + slack s.cap (s.len + xs.length)
      omega
    · show 0 + (s.len + xs.length + slack s.cap (s.len + xs.length)) ≤
        (cellsOf (h ++ [_]) h.length).length
      rw [cellsOf_append_new]
      simp only [List.length_append, List.length_replicate, length_contents hv]
      omega
    · have hl := length_contents hv
      simp only [contents, cellsOf_append_new, List.length_append, List.length_replicate, hl,
        List.drop_zero]
      have : 0 + (s.len + xs.length) ≤
          s.len + xs.length + slack s.cap (s.len + xs.length) := by omega
      simp only [this, if_true]
      have h4 : (((cellsOf h s.arr).drop s.off).take s.len ++ xs).length =
          s.len + xs.length := by
        rw [List.length_append, hl]
      rw [List.take_append_of_le_length (by omega), ← h4, List.take_length]

/-! ## The demonstration functions evaluated -/

theorem arrays_eq :
    arrays = .ok
      { first := .str "Hello"
        second := .str "World"
        a := [.str "Hello", .str "World"]
        primes := [.int 2, .int 3, .int 4, .int 5, .int 666, .int 721] } := by
  decide

theorem sliceLenCap_eq :
    sliceLenCap = .ok
      { s0 := (6, 6, [.int 2, .int 3, .int 5, .int 7, .int 11, .int 13])
        a1 := (0, 6, [])
        a2 := (4, 6, [.int 2, .int 3, .int 5, .int 7])
        a3 := (4, 4, [.int 5, .int 7, .int 11, .int 13])
        s := [.int 2, .int 3, .int 5, .int 7, .int 11, .int 13] } := by
  decide

theorem makeDynamicSlice_eq :
    makeDynamicSlice = .ok
      { a := (5, 5, [.int 0, .int 0, .int 0, .int 0, .int 0])
        b := (0, 5, [])
        c := (2, 5, [.int 0, .int 0])
        d := (3, 3, [.int 0, .int 0, .int 0]) } := by
  decide

theorem sliceOfSlices_eq : sliceOfSlices = .ok ["X _ X", "O _ X", "_ _ O"] := by
  decide

theorem sliceAppend_eq (slack : Nat → Nat → Nat) :
    ∃ c1 c2, 2 ≤ c1 ∧ 5 ≤ c2 ∧
      sliceAppend slack = .ok ⟨(0, 0, []), (2, c1, [.int 0, .int 1]),
        (5, c2, [.int 0, .int 1, .int 2, .int 3, .int 4])⟩ := by
  have v0 : nilSlice.validIn [] := by decide
  obtain ⟨t1, h1, e1, v1, l1, c1⟩ := append_spec slack (.int 0) [.int 0] v0
  obtain ⟨t2, h2, e2, v2, l2, c2⟩ := append_spec slack (.int 0) [.int 1] v1
  obtain ⟨t3, h3, e3, v3, l3, c3⟩ :=
    append_spec slack (.int 0) [.int 2, .int 3, .int 4] v2
  have d1 : contents h1 t1 = .ok [.int 0] := by
    rw [c1]
    rfl
  have k1 := contents_ok v1
  rw [d1] at k1
  have d2 : contents h2 t2 = .ok [.int 0, .int 1] := by
    rw [c2, ← Except.ok.inj k1]
    rfl
  have k2 := contents_ok v2
  rw [d2] at k2
  have d3 : contents h3 t3 = .ok [.int 0, .int 1, .int 2, .int 3, .int 4] := by
    rw [c3, ← Except.ok.inj k2]
    rfl
  have n1 : t1.len = 1 := by simpa [nilSlice] using l1
  have n2 : t2.len = 2 := by simpa [n1] using l2
  have n3 : t3.len = 5 := by simpa [n2] using l3
  refine ⟨t2.cap, t3.cap, ?_, ?_, ?_⟩
  · have := v2.1
    omega
  · have := v3.1
    omega
  · have p0 : printSlice [] nilSlice = .ok (0, 0, []) := by decide
    have p1 : printSlice h2 t2 = .ok (2, t2.cap, [.int 0, .int 1]) := by
      simp [printSlice, d2, n2]
    have p2 : printSlice h3 t3 =
        .ok (5, t3.cap, [.int 0, .int 1, .int 2, .int 3, .int 4]) := by
      simp [printSlice, d3, n3]
    simp [sliceAppend, p0, p1, p2, e1, e2, e3, bind, Except.bind, pure, Except.pure]

set_option maxRecDepth 100000 in
theorem slices_eq (slack : Nat → Nat → Nat) :
    slices slack = .ok
      { s := [.int 3, .int 5, .int 7]
        names := [.str "John", .str "Paul", .str "George", .str "Ringo"]
        a := [.str "John", .str "XXX"]
        b := [.str "XXX", .str "George"]
        sliceEq := List.replicate 4 [.int 2, .int 3, .int 5, .int 7, .int 11, .int 13]
        indexed := [(0, .int 1), (1, .int 2), (2, .int 4), (3, .int 8), (4, .int 16),
          (5, .int 32), (6, .int 64), (7, .int 128)]
        values := [.int 1, .int 2, .int 4, .int 8, .int 16, .int 32, .int 64, .int 128]
        powLen := 8
        pow := [.int 1, .int 2, .int 4, .int 8, .int 16, .int 32, .int 64, .int 128] } := by
  obtain ⟨c1, c2, _, _, hsa⟩ := sliceAppend_eq slack
  unfold slices
  rw [hsa]
  rfl

/-! ## Facts about closures -/

theorem getD_set_same (st : Store) (c : Nat) (v : Int) (hc : c < st.length) :
    (st.set c v).getD c 0 = v := by
  simp [List.getD_eq_getElem?_getD, List.getElem?_set, hc]

theorem getD_set_other (st : Store) (c d : Nat) (v : Int) (hcd : c ≠ d) :
    (st.set c v).getD d 0 = st.getD d 0 := by
  simp [List.getD_eq_getElem?_getD, List.getElem?_set, hcd]

theorem callAll_eq (f : Closure) (xs : List Int) :
    ∀ st : Store, f.cell < st.length →
      (callAll f xs st).1 = runningTotals (st.getD f.cell 0) xs := by
  induction xs with
  | nil => intro st _; rfl
  | cons x xs ih =>
    intro st hf
    have hlen : f.cell < (st.set f.cell (wrapInt (st.getD f.cell 0 + x))).length := by
      simpa using hf
    have := ih _ hlen
    rw [getD_set_same st f.cell _ hf] at this
    simp only [callAll, Closure.call, runningTotals, this]

theorem interleave_eq (f g : Closure) (hfg : f.cell ≠ g.cell) (calls : List (Bool × Int)) :
    ∀ st : Store, f.cell < st.length → g.cell < st.length →
      tagged true (interleave f g calls st).1 =
          runningTotals (st.getD f.cell 0) (tagged true calls) ∧
        tagged false (interleave f g calls st).1 =
          runningTotals (st.getD g.cell 0) (tagged false calls) := by
  induction calls with
  | nil => intro st _ _; exact ⟨rfl, rfl⟩
  | cons c calls ih =>
    intro st hf hg
    obtain ⟨who, x⟩ := c
    cases who with
    | true =>
      have hf' : f.cell < (st.set f.cell (wrapInt (st.getD f.cell 0 + x))).length := by
        simpa using hf
      have hg' : g.cell < (st.set f.cell (wrapInt (st.getD f.cell 0 + x))).length := by
        simpa using hg
      have := ih _ hf' hg'
      rw [getD_set_same st f.cell _ hf, getD_set_other st f.cell g.cell _ hfg] at this
      simp [interleave, tagged, Closure.call, runningTotals] at this ⊢
      exact this
    | false =>
      have hf' : f.cell < (st.set g.cell (wrapInt (st.getD g.cell 0 + x))).length := by
        simpa using hf
      have hg' : g.cell < (st.set g.cell (wrapInt (st.getD g.cell 0 + x))).length := by
        simpa using hg
      have := ih _ hf' hg'
      rw [getD_set_same st g.cell _ hg, getD_set_other st g.cell f.cell _ (Ne.symm hfg)] at this
      simp [interleave, tagged, Closure.call, runningTotals] at this ⊢
      exact this

theorem runningTotals_eq (xs : List Int) :
    ∀ acc : Int, runningTotals acc xs =
      (List.range xs.length).map (fun k => wrapInt (acc + (xs.take (k + 1)).sum)) := by
  induction xs with
  | nil => intro acc; rfl
  | cons x xs ih =>
    intro acc
    simp only [runningTotals, ih, List.length_cons, List.range_succ_eq_map, List.map_cons,
      List.map_map, List.take_succ_cons, List.take_zero, List.sum_cons, List.sum_nil]
    refine congrArg₂ _ (by simp) ?_
    apply List.map_congr_left
    intro k _
    simp only [Function.comp, List.take_succ_cons, List.sum_cons]
    rw [wrapInt_add_wrapInt, Int.add_assoc]

/-! ## The properties of the program -/

/-- C1: for every string `s` (of a length an `int` can hold) and every word
`w`, `WordCount(s)` returns a map in which looking `w` up gives the number of
occurrences of `w` among the fields of `s`, 0 when there is none; and
`WordCount("the quick the fox the")` maps "the" to 3, "quick" to 1, "fox" to 1. -/
theorem WordCount_counts_fields (s w : String) (hs : (s.length : Int) ≤ maxInt) :
    (∃ m, WordCount s = .ok m ∧ mapIndex m w = ((Fields s).count w : Int) ∧
      (w ∉ Fields s → mapGet m w = (0, false))) ∧
    WordCount "the quick the fox the" =
      .ok (.made [("the", 3), ("quick", 1), ("fox", 1)]) := by
  have hlen : ((Fields s).length : Int) ≤ maxInt := by
    have := Fields_length_le s
    omega
  obtain ⟨_, _, _, hkeys, hcnt⟩ := countWord_fold_inv (Fields s) hlen
  refine ⟨⟨_, WordCount_eq s, hcnt w, ?_⟩, by decide⟩
  intro hw
  exact entriesIndex_eq_zero_of_not_mem _ _ (fun hc => hw ((hkeys w).1 hc))

/-- C1 at `s = "the quick the fox the"`, `w = "the"`. -/
theorem WordCount_counts_fields_witness :
    (("the quick the fox the".length : Int) ≤ maxInt) ∧
    ((∃ m, WordCount "the quick the fox the" = .ok m ∧
        mapIndex m "the" = ((Fields "the quick the fox the").count "the" : Int) ∧
        ("the" ∉ Fields "the quick the fox the" → mapGet m "the" = (0, false))) ∧
      WordCount "the quick the fox the" =
        .ok (.made [("the", 3), ("quick", 1), ("fox", 1)])) :=
  ⟨by decide, WordCount_counts_fields "the quick the fox the" "the" (by decide)⟩

/-- C9: for every string `s` (of a length an `int` can hold), the counts stored
in the map returned by `WordCount(s)` add up to the number of fields of `s`,
the keys are the distinct fields of `s`, each once, and every count is at
least 1. -/
theorem WordCount_map_invariants (s : String) (hs : (s.length : Int) ≤ maxInt) :
    ∃ m, WordCount s = .ok m ∧
      (mapValues m).sum = ((Fields s).length : Int) ∧
      (mapKeys m).Nodup ∧ (∀ w, w ∈ mapKeys m ↔ w ∈ Fields s) ∧
      (∀ v ∈ mapValues m, 1 ≤ v) := by
  have hlen : ((Fields s).length : Int) ≤ maxInt := by
    have := Fields_length_le s
    omega
  obtain ⟨hpos, hsum, hnd, hkeys, _⟩ := countWord_fold_inv (Fields s) hlen
  exact ⟨_, WordCount_eq s, hsum, hnd, hkeys, hpos⟩

/-- C9 at `s = "the quick the fox the"`. -/
theorem WordCount_map_invariants_witness :
    (("the quick the fox the".length : Int) ≤ maxInt) ∧
    (∃ m, WordCount "the quick the fox the" = .ok m ∧
      (mapValues m).sum = ((Fields "the quick the fox the").length : Int) ∧
      (mapKeys m).Nodup ∧ (∀ w, w ∈ mapKeys m ↔ w ∈ Fields "the quick the fox the") ∧
      (∀ v ∈ mapValues m, 1 ≤ v)) :=
  ⟨by decide, WordCount_map_invariants "the quick the fox the" (by decide)⟩

/-- C3, as stated, fails: on the nil map (a value of type `map[string]int`)
the insertion `m["Answer"] = 42` panics, so there is no map to delete from and
no lookup that returns `(0, false)`. -/
theorem nil_map_insert_panics :
    mapSet GoMap.nil "Answer" 42 = .error .assignToNilMap ∧
    ¬ ∃ m1, mapSet GoMap.nil "Answer" 42 = .ok m1 ∧
      mapGet (mapDelete m1 "Answer") "Answer" = (0, false) := by
  refine ⟨rfl, ?_⟩
  rintro ⟨m1, h, _⟩
  cases h

/-- C3, amended: in every non-nil map, setting key `k` to `v` succeeds and a
lookup then finds `v`; overwriting `k` any number of times succeeds; and after
`delete(m, k)` looking `k` up gives `(0, false)`.  `mutatingMaps` prints 42, 48,
0 and ends with `v = 0`, `ok = false`. -/
theorem mutatingMaps_deleted_lookup (m : GoMap) (k : String) (v : Int) (ws : List Int)
    (hm : m ≠ GoMap.nil) :
    (∃ m1 m2, mapSet m k v = .ok m1 ∧ mapGet m1 k = (v, true) ∧
      ws.foldlM (fun m w => mapSet m k w) m1 = .ok m2 ∧
      mapGet (mapDelete m2 k) k = (0, false)) ∧
    mutatingMaps = .ok ⟨42, 48, 0, 0, false⟩ := by
  refine ⟨?_, by decide⟩
  cases m with
  | nil => exact absurd rfl hm
  | made es =>
    refine ⟨.made (entriesSet es k v), ?_⟩
    have hfold : ∀ (ws : List Int) (es : Entries),
        ws.foldlM (fun m w => mapSet m k w) (GoMap.made es) =
          .ok (.made (ws.foldl (fun es w => entriesSet es k w) es)) := by
      intro ws
      induction ws with
      | nil => intro es; rfl
      | cons w ws ih =>
        intro es
        rw [List.foldlM_cons]
        exact ih (entriesSet es k w)
    exact ⟨_, rfl, entriesGet_entriesSet_same es k v, hfold ws _,
      entriesGet_entriesDelete_same _ k⟩

/-- C3 at the map of `mutatingMaps`: `make`, key "Answer" set to 42 and
overwritten with 48. -/
theorem mutatingMaps_deleted_lookup_witness :
    makeMap ≠ GoMap.nil ∧
    ((∃ m1 m2, mapSet makeMap "Answer" 42 = .ok m1 ∧ mapGet m1 "Answer" = (42, true) ∧
        [(48 : Int)].foldlM (fun m w => mapSet m "Answer" w) m1 = .ok m2 ∧
        mapGet (mapDelete m2 "Answer") "Answer" = (0, false)) ∧
      mutatingMaps = .ok ⟨42, 48, 0, 0, false⟩) :=
  ⟨by decide, mutatingMaps_deleted_lookup makeMap "Answer" 42 [48] (by decide)⟩

/-- C6: for a view `v` and `lo ≤ hi ≤ cap(v)`, the slice expression `v[lo:hi]`
succeeds and gives a view of the same array, offset by `lo`, of length
`hi - lo` and capacity `cap(v) - lo`; `makeDynamicSlice` prints
a: 5/5, b: 0/5, c: 2/5, d: 3/3 and `sliceLenCap` prints 6/6, 0/6, 4/6, 4/4. -/
theorem reslice_len_cap (v : Slice) (lo hi : Nat) (hlo : lo ≤ hi) (hhi : hi ≤ v.cap) :
    (∃ t, reslice v lo hi = .ok t ∧ t.len = hi - lo ∧ t.cap = v.cap - lo ∧
      t.arr = v.arr ∧ t.off = v.off + lo) ∧
    makeDynamicSlice = .ok
      { a := (5, 5, [.int 0, .int 0, .int 0, .int 0, .int 0])
        b := (0, 5, [])
        c := (2, 5, [.int 0, .int 0])
        d := (3, 3, [.int 0, .int 0, .int 0]) } ∧
    sliceLenCap = .ok
      { s0 := (6, 6, [.int 2, .int 3, .int 5, .int 7, .int 11, .int 13])
        a1 := (0, 6, [])
        a2 := (4, 6, [.int 2, .int 3, .int 5, .int 7])
        a3 := (4, 4, [.int 5, .int 7, .int 11, .int 13])
        s := [.int 2, .int 3, .int 5, .int 7, .int 11, .int 13] } := by
  refine ⟨⟨⟨v.arr, v.off + lo, hi - lo, v.cap - lo⟩, ?_, rfl, rfl, rfl, rfl⟩,
    makeDynamicSlice_eq, sliceLenCap_eq⟩
  simp [reslice, hlo, hhi]

/-- C6 at `c[2:5]` for the view `c` of `makeDynamicSlice` (length 2, capacity 5). -/
theorem reslice_len_cap_witness :
    (2 ≤ 5) ∧ (5 ≤ (Slice.mk 1 0 2 5).cap) ∧
    ((∃ t, reslice (Slice.mk 1 0 2 5) 2 5 = .ok t ∧ t.len = 5 - 2 ∧
        t.cap = (Slice.mk 1 0 2 5).cap - 2 ∧ t.arr = (Slice.mk 1 0 2 5).arr ∧
        t.off = (Slice.mk 1 0 2 5).off + 2) ∧
      makeDynamicSlice = .ok
        { a := (5, 5, [.int 0, .int 0, .int 0, .int 0, .int 0])
          b := (0, 5, [])
          c := (2, 5, [.int 0, .int 0])
          d := (3, 3, [.int 0, .int 0, .int 0]) } ∧
      sliceLenCap = .ok
        { s0 := (6, 6, [.int 2, .int 3, .int 5, .int 7, .int 11, .int 13])
          a1 := (0, 6, [])
          a2 := (4, 6, [.int 2, .int 3, .int 5, .int 7])
          a3 := (4, 4, [.int 5, .int 7, .int 11, .int 13])
          s := [.int 2, .int 3, .int 5, .int 7, .int 11, .int 13] }) :=
  ⟨by decide, by decide, reslice_len_cap (Slice.mk 1 0 2 5) 2 5 (by decide) (by decide)⟩

/-- C4: let `a = arr[lo1:hi1]` and `b = arr[lo2:hi2]` be two views of the
storage of `arr` and `p` a position in both ranges.  The assignment
`b[p-lo2] = x` succeeds and afterwards `a[p-lo1]` is `x`.  In `slices`, after
`b[0] = "XXX"`, `a` is `[John, XXX]` and `b` is `[XXX, George]`. -/
theorem write_seen_through_overlap (slack : Nat → Nat → Nat) (h : Heap) (arr a b : Slice)
    (lo1 hi1 lo2 hi2 p : Nat) (x : Val) (hv : arr.validIn h)
    (ha : reslice arr lo1 hi1 = .ok a) (hb : reslice arr lo2 hi2 = .ok b)
    (h1 : lo1 ≤ p) (h2 : p < hi1) (h3 : lo2 ≤ p) (h4 : p < hi2) :
    (∃ h', setIndex h b (p - lo2) x = .ok h' ∧ index h' a (p - lo1) = .ok x) ∧
    (∃ o, slices slack = .ok o ∧ o.a = [.str "John", .str "XXX"] ∧
      o.b = [.str "XXX", .str "George"]) := by
  refine ⟨?_, _, slices_eq slack, rfl, rfl⟩
  obtain ⟨_, ha2, rfl⟩ := reslice_inv ha
  obtain ⟨_, hb2, rfl⟩ := reslice_inv hb
  have hcap := hv.2
  have hpos : arr.off + p < (cellsOf h arr.arr).length := by omega
  have harr : arr.arr < h.length := lt_length_of_cellsOf hpos
  have eb : arr.off + lo2 + (p - lo2) = arr.off + p := by omega
  have ea : arr.off + lo1 + (p - lo1) = arr.off + p := by omega
  refine ⟨_, setIndex_ok x (by show p - lo2 < hi2 - lo2; omega)
    (by show arr.off + lo2 + (p - lo2) < (cellsOf h arr.arr).length; omega), ?_⟩
  apply index_ok (by show p - lo1 < hi1 - lo1; omega)
  show (cellsOf (h.set arr.arr _) arr.arr)[arr.off + lo1 + (p - lo1)]? = some x
  rw [cellsOf_set_same _ harr, ea]
  show ((cellsOf h arr.arr).set (arr.off + lo2 + (p - lo2)) x)[arr.off + p]? = some x
  rw [eb]
  simp [List.getElem?_set, hpos]

/-- C4 at the array `names` of `slices`: `a = names[0:2]`, `b = names[1:3]`,
position 1, value "XXX". -/
theorem write_seen_through_overlap_witness :
    (Slice.mk 0 0 4 4).validIn [[.str "John", .str "Paul", .str "George", .str "Ringo"]] ∧
    reslice (Slice.mk 0 0 4 4) 0 2 = .ok (Slice.mk 0 0 2 4) ∧
    reslice (Slice.mk 0 0 4 4) 1 3 = .ok (Slice.mk 0 1 2 3) ∧
    0 ≤ 1 ∧ 1 < 2 ∧ 1 ≤ 1 ∧ 1 < 3 ∧
    ((∃ h', setIndex [[.str "John", .str "Paul", .str "George", .str "Ringo"]]
          (Slice.mk 0 1 2 3) (1 - 1) (.str "XXX") = .ok h' ∧
        index h' (Slice.mk 0 0 2 4) (1 - 0) = .ok (.str "XXX")) ∧
      (∃ o, slices (fun _ _ => 0) = .ok o ∧ o.a = [.str "John", .str "XXX"] ∧
        o.b = [.str "XXX", .str "George"])) :=
  ⟨by decide, by decide, by decide, by decide, by decide, by decide, by decide,
    write_seen_through_overlap (fun _ _ => 0)
      [[.str "John", .str "Paul", .str "George", .str "Ringo"]]
      (Slice.mk 0 0 4 4) (Slice.mk 0 0 2 4) (Slice.mk 0 1 2 3) 0 2 1 3 1 (.str "XXX")
      (by decide) (by decide) (by decide) (by decide) (by decide) (by decide) (by decide)⟩

/-- C5: let `s` be a view with `len(s) = cap(s)` and `xs` a non-empty list.
Then `append(s, xs...)` succeeds and returns a view `t` of an array that did
not exist before, holding the elements of `s` followed by `xs`; and after any
sequence of successful assignments through `s` or through views of arrays that
existed before the call, `t` still holds the elements of `s` followed by `xs`.
The first `append` of `sliceAppend`, of 0 to the nil slice, allocates so. -/
theorem append_full_reallocates (slack : Nat → Nat → Nat) (zero : Val) (h : Heap) (s : Slice)
    (xs : List Val) (hv : s.validIn h) (hfull : s.len = s.cap) (hxs : xs ≠ []) :
    (∃ t h' old, contents h s = .ok old ∧ append slack zero h s xs = .ok (t, h') ∧
      t.arr = h.length ∧ contents h' t = .ok (old ++ xs) ∧
      (∀ ws h'', (∀ w ∈ ws, w.1.arr < h.length ∨ w.1 = s) → writeAll h' ws = .ok h'' →
        contents h'' t = .ok (old ++ xs))) ∧
    append slack (.int 0) [] nilSlice [.int 0] =
      .ok (⟨0, 0, 1, 1 + slack 0 1⟩, [[.int 0] ++ List.replicate (slack 0 1) (.int 0)]) := by
  have hpos : 0 < xs.length := List.length_pos.mpr hxs
  have hg : s.cap < s.len + xs.length := by omega
  constructor
  · obtain ⟨t, h', happ, htv, _, hcont⟩ := append_spec slack zero xs hv
    have hgrow := append_grow slack zero xs hv hg
    rw [hgrow] at happ
    have ht : t.arr = h.length := by
      have := (Prod.mk.inj (Except.ok.inj happ)).1
      rw [← this]
    refine ⟨t, h', _, contents_ok hv, by rw [hgrow, happ], ht, hcont, ?_⟩
    intro ws h'' hws hw
    have hframe : cellsOf h'' t.arr = cellsOf h' t.arr := by
      apply writeAll_frame ws t.arr h' h'' _ hw
      intro w hwmem
      rcases hws w hwmem with hlt | heq
      · left
        omega
      · rw [heq]
        by_cases hsa : s.arr < h.length
        · left
          omega
        · right
          have hnil := cellsOf_eq_nil (Nat.le_of_not_lt hsa)
          have := hv.2
          rw [hnil] at this
          simp only [List.length_nil, Nat.le_zero, Nat.add_eq_zero] at this
          omega
    rw [contents_congr hframe, hcont]
  · have v0 : nilSlice.validIn [] := by decide
    have := append_grow slack (.int 0) [.int 0] v0 (by decide)
    simpa [nilSlice, cellsOf] using this

/-- C5 at the nil slice of `sliceAppend`, appended with 0. -/
theorem append_full_reallocates_witness :
    nilSlice.validIn [] ∧ nilSlice.len = nilSlice.cap ∧ [Val.int 0] ≠ [] ∧
    ((∃ t h' old, contents [] nilSlice = .ok old ∧
        append (fun _ _ => 0) (.int 0) [] nilSlice [.int 0] = .ok (t, h') ∧
        t.arr = ([] : Heap).length ∧ contents h' t = .ok (old ++ [.int 0]) ∧
        (∀ ws h'', (∀ w ∈ ws, w.1.arr < ([] : Heap).length ∨ w.1 = nilSlice) →
          writeAll h' ws = .ok h'' → contents h'' t = .ok (old ++ [.int 0]))) ∧
      append (fun _ _ => 0) (.int 0) [] nilSlice [.int 0] =
        .ok (⟨0, 0, 1, 1 + (fun _ _ => 0) 0 1⟩,
          [[.int 0] ++ List.replicate ((fun _ _ => 0) 0 1) (.int 0)])) :=
  ⟨by decide, by decide, by decide,
    append_full_reallocates (fun _ _ => 0) (.int 0) [] nilSlice [.int 0]
      (by decide) (by decide) (by decide)⟩

/-- C8: an index expression (on a view, or `words[i]` in `WordCount`) fails
with the out-of-range error exactly when the index is not below the length,
and a slice expression fails exactly when `lo ≤ hi ≤ cap` does not hold; `arrays`, `slices`, `sliceLenCap`,
`makeDynamicSlice`, `sliceOfSlices`, `sliceAppend` (for every growth policy) and
`WordCount` (for every string) run to completion without any error; and in
`makeDynamicSlice` the view `c = b[:2]` has length 2 and capacity 5 and
`d = c[2:5]` succeeds. -/
theorem no_out_of_bounds :
    (∀ h s i, index h s i = .error .indexOutOfRange ↔ ¬ i < s.len) ∧
    (∀ h s i x, setIndex h s i x = .error .indexOutOfRange ↔ ¬ i < s.len) ∧
    (∀ s lo hi, reslice s lo hi = .error .sliceBoundsOutOfRange ↔ ¬ (lo ≤ hi ∧ hi ≤ s.cap)) ∧
    (∀ words i m, WordCount.body words i m = .error .indexOutOfRange ↔ ¬ i < words.length) ∧
    (∃ o, arrays = .ok o) ∧ (∀ slack, ∃ o, slices slack = .ok o) ∧
    (∃ o, sliceLenCap = .ok o) ∧ (∃ o, makeDynamicSlice = .ok o) ∧
    (∃ o, sliceOfSlices = .ok o) ∧ (∀ slack, ∃ o, sliceAppend slack = .ok o) ∧
    (∀ s, ∃ m, WordCount s = .ok m) ∧
    (∃ c d, reslice ⟨1, 0, 0, 5⟩ 0 2 = .ok c ∧ c.len = 2 ∧ c.cap = 5 ∧
      reslice c 2 5 = .ok d) := by
  refine ⟨?_, ?_, ?_, ?_, ⟨_, arrays_eq⟩, fun slack => ⟨_, slices_eq slack⟩,
    ⟨_, sliceLenCap_eq⟩, ⟨_, makeDynamicSlice_eq⟩, ⟨_, sliceOfSlices_eq⟩, ?_,
    fun s => ⟨_, WordCount_eq s⟩,
    ⟨⟨1, 0, 2, 5⟩, ⟨1, 2, 3, 3⟩, by decide, rfl, rfl, by decide⟩⟩
  · intro h s i
    unfold index
    by_cases hi : i < s.len
    · cases hc : (cellsOf h s.arr)[s.off + i]? <;> simp [hi]
    · simp [hi]
  · intro h s i x
    unfold setIndex
    by_cases hi : i < s.len
    · by_cases hc : s.off + i < (cellsOf h s.arr).length <;> simp [hi, hc]
    · simp [hi]
  · intro s lo hi
    unfold reslice
    by_cases hc : lo ≤ hi ∧ hi ≤ s.cap
    · simp [hc]
    · simp only [hc, if_false, not_false_eq_true]
  · intro words i m
    unfold WordCount.body
    by_cases hi : i < words.length
    · cases m <;> simp [List.getElem?_eq_getElem hi, hi, mapSet]
    · simp [List.getElem?_eq_none (Nat.le_of_not_lt hi), hi]
  · intro slack
    obtain ⟨c1, c2, _, _, h⟩ := sliceAppend_eq slack
    exact ⟨_, h⟩

/-- C10: in `slices`, after the last loop, `pow[i]` is `2^i` for every index
`i` from 0 to 7, which is what `1 << i` evaluates to; `pow` equals its initial
literal `[1, 2, 4, 8, 16, 32, 64, 128]` and its length is still 8. -/
theorem slices_pow_powers_of_two (slack : Nat → Nat → Nat) :
    ∃ o, slices slack = .ok o ∧
      (∀ i : Fin 8, o.pow[i.val]? = some (.int (2 ^ i.val)) ∧ shl 1 i.val = 2 ^ i.val) ∧
      o.pow = [.int 1, .int 2, .int 4, .int 8, .int 16, .int 32, .int 64, .int 128] ∧
      o.powLen = 8 ∧ o.pow.length = 8 :=
  ⟨_, slices_eq slack, by decide, rfl, rfl, rfl⟩

/-- C2: let `f` and `g` be the closures returned by two calls of
`anonymousFunction`.  In every interleaving of calls of `f` and `g`, the values
returned by the calls of `f` are those `f` returns when its calls are made
alone, with the same arguments in the same order, and likewise for `g`. -/
theorem closures_independent (st : Store) (calls : List (Bool × Int)) :
    tagged true (interleave (anonymousFunction st).1
        (anonymousFunction (anonymousFunction st).2).1 calls
        (anonymousFunction (anonymousFunction st).2).2).1 =
      (callAll (anonymousFunction st).1 (tagged true calls)
        (anonymousFunction (anonymousFunction st).2).2).1 ∧
    tagged false (interleave (anonymousFunction st).1
        (anonymousFunction (anonymousFunction st).2).1 calls
        (anonymousFunction (anonymousFunction st).2).2).1 =
      (callAll (anonymousFunction (anonymousFunction st).2).1 (tagged false calls)
        (anonymousFunction (anonymousFunction st).2).2).1 := by
  have hf : (anonymousFunction st).1.cell <
      (anonymousFunction (anonymousFunction st).2).2.length := by
    simp [anonymousFunction]
  have hg : (anonymousFunction (anonymousFunction st).2).1.cell <
      (anonymousFunction (anonymousFunction st).2).2.length := by
    simp [anonymousFunction]
  have hfg : (anonymousFunction st).1.cell ≠
      (anonymousFunction (anonymousFunction st).2).1.cell := by
    simp [anonymousFunction]
  rw [callAll_eq _ _ _ hf, callAll_eq _ _ _ hg]
  exact interleave_eq _ _ hfg calls _ hf hg

/-- C7, as stated, fails: a fresh closure called with the largest `int` and
then with 1 returns the smallest `int` at the second call, not the sum of the
two arguments. -/
theorem running_total_overflows :
    (callAll (anonymousFunction []).1 [9223372036854775807, 1] (anonymousFunction []).2).1 =
      [9223372036854775807, -9223372036854775808] ∧
    (callAll (anonymousFunction []).1 [9223372036854775807, 1] (anonymousFunction []).2).1 ≠
      [9223372036854775807, 9223372036854775807 + 1] := by
  decide

/-- C7, amended: for a closure `f` returned by `anonymousFunction` and
arguments `x1, ..., xn` passed in that order, the `k`-th call returns
`x1 + ... + xk` wrapped around into the 64-bit `int` range (the running total
starts at 0), and wrapping leaves a value unchanged exactly when it is in the
`int` range; in the loop of `functions`, for `i` from 0 to 9, `pos(i)` returns
`i*(i+1)/2` and `neg(-2*i)` returns `-i*(i+1)`. -/
theorem running_total_wrapped (st : Store) (xs : List Int) :
    (callAll (anonymousFunction st).1 xs (anonymousFunction st).2).1 =
      (List.range xs.length).map (fun k => wrapInt ((xs.take (k + 1)).sum)) ∧
    (∀ z, wrapInt z = z ↔ inIntRange z) ∧
    functions = (List.range 10).map
      (fun i => (((i : Int) * ((i : Int) + 1)) / 2, -((i : Int) * ((i : Int) + 1)))) := by
  refine ⟨?_, ?_, by decide⟩
  rotate_left
  · intro z
    constructor
    · intro hz
      unfold wrapInt intBits at hz
      unfold inIntRange minInt maxInt intBits
      norm_num at hz ⊢
      omega
    · exact wrapInt_eq_self
  have hf : (anonymousFunction st).1.cell < (anonymousFunction st).2.length := by
    simp [anonymousFunction]
  rw [callAll_eq _ _ _ hf, runningTotals_eq]
  have h0 : (anonymousFunction st).2.getD (anonymousFunction st).1.cell 0 = 0 := by
    simp [anonymousFunction, List.getD_eq_getElem?_getD]
  rw [h0]
  simp

end GoTour
